import Mathlib

/-!
# Search: line matcher and per-file search

A shallow embedding of `pkg/search/search.go`.

* A Go `string` is a Lean `String`; the conversion `[]rune(s)` is `s.toList`.
* Go `int` / `int64` values are `Int` (slice lengths are far below `2^63`, so no
  wrap-around is reachable in `searchInLine` or `search`).
* An out-of-range slice access is the Go runtime panic; it is the result
  `Except.error Fault.indexOutOfRange`.
* The `for` loop of `searchInLine` is run with a fuel counter; `searchInLine`
  supplies `2 * len(line) + 1` units, and the theorems show that this is always
  enough for a non-empty phrase.
* The file handed to `search` is the list of lines `bufio.Scanner` yields.
* The file system is a map from file names to lines, `none` for a name that does not
  open. `All` and `Any` are functions of the order in which the per-file goroutines
  come to their channel; the goroutines of `Any` are also given as a step function on
  a state (`Any.step`), in which a send on the unbuffered `msg` proceeds only together
  with the one receive `winner := <-msg`.
-/

namespace Search

/-- A Go `rune`: one Unicode code point. -/
abbrev Rune := Char

/-- Ways in which running the embedded code can fail to produce a value. -/
inductive Fault where
  /-- Go runtime panic: index out of range. -/
  | indexOutOfRange
  /-- The fuel of the embedded loop ran out. -/
  | outOfFuel
  deriving DecidableEq, Repr

/-- The `context.Context` argument, as far as the code could observe it. -/
structure Context where
  /-- Whether the context has been cancelled. -/
  done : Bool
  deriving DecidableEq, Repr

deriving instance DecidableEq for Except

/-- The `error` values of the package. -/
inductive Error where
  /-- The value of `ErrNoWordInFile`: "no word in file". -/
  | ErrNoWordInFile
  deriving DecidableEq, Repr

/-- Result describes one search result. -/
structure Result where
  /-- The phrase searched for. -/
  Phrase : String
  /-- The whole line in which the occurrence was found. -/
  Line : String
  /-- Line number (from 1) of the occurrence. -/
  LineNum : Int
  /-- Column (from 1) of the occurrence. -/
  ColNum : Int
  deriving DecidableEq, Repr

/-- The zero value `Result{}`. -/
def Result.zero : Result := ⟨"", "", 0, 0⟩

/-- Slice indexing `s[k]` with a Go `int` index: panics outside `0 ≤ k < len(s)`. -/
def index (s : List Rune) (k : Int) : Except Fault Rune :=
  if k < 0 then .error .indexOutOfRange
  else
    match s[k.toNat]? with
    | some r => .ok r
    | none => .error .indexOutOfRange

/-- The `for i < len(line)` loop of `searchInLine`, from the state `(i, j, indexes)`. -/
def searchInLine.loop (line phrase : List Rune) (all : Bool) :
    Nat → Int → Int → List Int → Except Fault (List Int)
  | 0, _, _, _ => .error .outOfFuel
  | fuel + 1, i, j, indexes =>
    if i < (line.length : Int) then
      match index line i with
      | .error e => .error e
      | .ok a =>
        match index phrase j with
        | .error e => .error e
        | .ok b =>
          if a = b then
            if j = (phrase.length : Int) - 1 then
              -- indexes = append(indexes, i-j)
              if !all then .ok (indexes ++ [i - j])
              else
                -- j = -1; i++; j++
                searchInLine.loop line phrase all fuel (i + 1) (-1 + 1) (indexes ++ [i - j])
            else
              -- i++; j++
              searchInLine.loop line phrase all fuel (i + 1) (j + 1) indexes
          else if j = 0 then
            -- i++
            searchInLine.loop line phrase all fuel (i + 1) j indexes
          else
            -- j = 0
            searchInLine.loop line phrase all fuel i 0 indexes
    else .ok indexes

/-- The function `searchInLine`: start offsets of `phrase` in `line`. -/
def searchInLine (_ctx : Context) (line phrase : List Rune) (all : Bool) :
    Except Fault (List Int) :=
  searchInLine.loop line phrase all (2 * line.length + 1) 0 0 []

/-- What one pass over `for _, index := range res` in `search` ends with. -/
inductive Flow where
  /-- The range loop ran to its end with these occurrences. -/
  | next (occurrences : List Result)
  /-- The loop hit `return occurrences, nil`. -/
  | ret (occurrences : List Result)
  deriving DecidableEq, Repr

/-- The loop `for _, index := range res` of `search`. -/
def search.range (phrase line : String) (lineNum : Int) (all : Bool) :
    List Int → List Result → Flow
  | [], occurrences => .next occurrences
  | idx :: rest, occurrences =>
    let occurrences := occurrences ++ [⟨phrase, line, lineNum, idx + 1⟩]
    if !all then .ret occurrences
    else search.range phrase line lineNum all rest occurrences

/-- The loop `for scanner.Scan()` of `search` together with the code after it. -/
def search.scan (ctx : Context) (phrase : String) (all : Bool) :
    List String → Int → List Result → Except Fault (List Result × Option Error)
  | [], _, occurrences =>
    if occurrences.length = 0 then .ok ([], some .ErrNoWordInFile)
    else .ok (occurrences, none)
  | line :: rest, lineNum, occurrences =>
    match searchInLine ctx line.toList phrase.toList all with
    | .error e => .error e
    | .ok res =>
      if res.length ≠ 0 then
        match search.range phrase line lineNum all res occurrences with
        | .ret occurrences => .ok (occurrences, none)
        | .next occurrences => search.scan ctx phrase all rest (lineNum + 1) occurrences
      else search.scan ctx phrase all rest (lineNum + 1) occurrences

/-- The function `search` over the lines of one file. -/
def search (ctx : Context) (file : List String) (phrase : String) (all : Bool) :
    Except Fault (List Result × Option Error) :=
  search.scan ctx phrase all file 1 []

/-- The phrase occurs in the line `text` at 0-based offset `k`:
`k + len(phrase) ≤ len(line)` and `line[k+t] = phrase[t]` for every `t < len(phrase)`. -/
def occursAt (text phrase : List Rune) (k : Int) : Prop :=
  0 ≤ k ∧ k + phrase.length ≤ text.length ∧
    ∀ t : Nat, t < phrase.length → text[k.toNat + t]? = phrase[t]?

instance (text phrase : List Rune) (k : Int) : Decidable (occursAt text phrase k) := by
  unfold occursAt; infer_instance

/-- The offsets `searchInLine` returns for `line`; the empty list stands in when the
call does not return a list. -/
def lineOffsets (ctx : Context) (phrase line : String) (all : Bool) : List Int :=
  match searchInLine ctx line.toList phrase.toList all with
  | .ok res => res
  | .error _ => []

/-- One `Result` per offset `k` that exhaustive `searchInLine` returns for the line `p.2`
at 0-based position `p.1` of the file: `LineNum` is `p.1 + 1` and `ColNum` is `k + 1`. -/
def lineResults (ctx : Context) (phrase : String) (p : Nat × String) : List Result :=
  (lineOffsets ctx phrase p.2 true).map (fun k => ⟨phrase, p.2, (p.1 : Int) + 1, k + 1⟩)

/-- The concatenation of `lineResults` over the lines of a file, in file order, the
first line being at 0-based position `start`. -/
def resultsFrom (ctx : Context) (phrase : String) (start : Nat) (file : List String) :
    List Result :=
  (file.enumFrom start).flatMap (lineResults ctx phrase)

/-- The concatenation of `lineResults` over all lines of a file, in file order. -/
def fileResults (ctx : Context) (phrase : String) (file : List String) : List Result :=
  resultsFrom ctx phrase 0 file

/-- Appearance order on `(LineNum, ColNum)` pairs: line order first, then left to right. -/
def appearsBefore (a b : Result) : Prop :=
  a.LineNum < b.LineNum ∨ (a.LineNum = b.LineNum ∧ a.ColNum < b.ColNum)

/-- The smallest offset `k ≥ p` at which the phrase occurs in the line, if there is one. -/
def nextOccurrence (text phrase : List Rune) (p : Nat) : Option Nat :=
  (List.range (text.length + 1)).find? (fun k => decide (p ≤ k ∧ occursAt text phrase k))

/-- The reference scan from position `p`: take the smallest offset `k ≥ p` at which the
phrase occurs, record `k`, continue from `k + len(phrase)`. -/
def referenceScan.scanFrom (text phrase : List Rune) : Nat → Nat → List Int
  | 0, _ => []
  | fuel + 1, p =>
    match nextOccurrence text phrase p with
    | none => []
    | some k => (k : Int) :: referenceScan.scanFrom text phrase fuel (k + phrase.length)

/-- The reference leftmost non-overlapping scan, starting at `p = 0`. Each round moves
`p` forward, so `len(line) + 1` rounds exhaust the line. -/
def referenceScan (text phrase : List Rune) : List Int :=
  referenceScan.scanFrom text phrase (text.length + 1) 0

/-- The ascending list of all offsets at which the phrase occurs in the line. -/
def allOccurrences (text phrase : List Rune) : List Int :=
  ((List.range (text.length + 1)).filter
    (fun k : Nat => decide (occursAt text phrase (k : Int)))).map (fun k : Nat => (k : Int))

/-- The files `os.OpenFile` can reach: the lines of a file that opens, `none` for a
name that fails to open. -/
abbrev FileSystem := String → Option (List String)

/-- The goroutine `Any` starts for one file: the message it sends on `msg`, or `none`
when it returns without sending (context done, or the file does not open). -/
def Any.task (ctx : Context) (fs : FileSystem) (phrase filename : String) :
    Except Fault (Option Result) :=
  if ctx.done then .ok none
  else
    match fs filename with
    | none => .ok none
    | some file =>
      match search ctx file phrase false with
      | .error e => .error e
      | .ok (result, err) =>
        if err = some Error.ErrNoWordInFile then .ok (some Result.zero)
        else
          -- channel <- result[0]
          match result with
          | r :: _ => .ok (some r)
          | [] => .error .indexOutOfRange

/-- The receive `winner := <-msg` of `Any`: the message of the first task, in the order
in which the tasks come to the channel, that sends one; `none` when no task sends. -/
def Any.receive (ctx : Context) (fs : FileSystem) (phrase : String) :
    List String → Except Fault (Option Result)
  | [] => .ok none
  | filename :: rest =>
    match Any.task ctx fs phrase filename with
    | .error e => .error e
    | .ok (some winner) => .ok (some winner)
    | .ok none => Any.receive ctx fs phrase rest

/-- The function `Any`: the `Result` delivered on the returned channel. `arrival` is the
list `files` in the order in which the per-file tasks arrive at the receive on `msg`;
`none` means the receive never completes, so nothing is delivered. -/
def Any (ctx : Context) (fs : FileSystem) (phrase : String) (arrival : List String) :
    Except Fault (Option Result) :=
  Any.receive ctx fs phrase arrival

/-- A two-file directory: `a.txt` has no `cat`, `b.txt` has one. -/
def sampleFiles : FileSystem := fun filename =>
  if filename = "a.txt" then some ["no match here"]
  else if filename = "b.txt" then some ["a cat sat"]
  else none

/-- The goroutine `All` starts for one file: the match list it sends on `ch`, or `none`
when it returns without sending (the file does not open, or `search` reports
`ErrNoWordInFile`). -/
def All.task (ctx : Context) (fs : FileSystem) (phrase filename : String) :
    Except Fault (Option (List Result)) :=
  match fs filename with
  | none => .ok none
  | some file =>
    match search ctx file phrase true with
    | .error e => .error e
    | .ok (result, err) =>
      if err = some Error.ErrNoWordInFile then .ok none
      else .ok (some result)

/-- The function `All`: the elements a reader receives from the returned channel before
it is closed. `arrival` is the list `files` in the order in which the per-file tasks
come to the send on `ch`. -/
def All (ctx : Context) (fs : FileSystem) (phrase : String) :
    List String → Except Fault (List (List Result))
  | [] => .ok []
  | filename :: rest =>
    match All.task ctx fs phrase filename with
    | .error e => .error e
    | .ok sent =>
      match All ctx fs phrase rest with
      | .error e => .error e
      | .ok outcomes => .ok (sent.toList ++ outcomes)

/-- Whether a file opens. -/
def opens (fs : FileSystem) (filename : String) : Bool :=
  (fs filename).isSome

/-- Whether a file opens and `search` in All mode returns matches for it. -/
def opensWithMatch (ctx : Context) (fs : FileSystem) (phrase filename : String) : Bool :=
  match fs filename with
  | none => false
  | some file =>
    match search ctx file phrase true with
    | .ok (_, none) => true
    | _ => false

/-- What the task of `All` for one file puts on `ch`: at most one match list. -/
def All.sent (ctx : Context) (fs : FileSystem) (phrase filename : String) :
    List (List Result) :=
  match All.task ctx fs phrase filename with
  | .ok sent => sent.toList
  | .error _ => []

/-- The matches of exhaustive `searchInLine` over the lines of a named file. -/
def matchesIn (ctx : Context) (fs : FileSystem) (phrase filename : String) : List Result :=
  match fs filename with
  | some file => fileResults ctx phrase file
  | none => []

/-- Where one per-file goroutine of `Any` stands. -/
inductive TaskState where
  /-- Started, before the `select` on `ctx.Done()`. -/
  | ready (filename : String)
  /-- At the send `channel <- m`, waiting for a receiver. -/
  | sending (m : Result)
  /-- Returned. -/
  | finished
  /-- Stopped by a runtime panic. -/
  | panicked (e : Fault)
  deriving DecidableEq, Repr

/-- Where the body of `Any` and the goroutine it starts at its end stand. -/
inductive AnyState where
  /-- At `winner := <-msg`. -/
  | receiving
  /-- The receive is done; `wg.Done()` and `cancel()` come next. -/
  | received (winner : Result)
  /-- `cancel()` is done and `Any` has returned `ch`; `ch <- winner` comes next. -/
  | returned (winner : Result)
  /-- The reader has the winner and `ch` is closed. -/
  | delivered (winner : Result)
  deriving DecidableEq, Repr

/-- The goroutines of one call of `Any` and its derived context. -/
structure System where
  /-- The per-file tasks, in the order of `files`. -/
  tasks : List TaskState
  /-- The body of `Any`. -/
  main : AnyState
  /-- Whether the context the tasks see is done. -/
  cancelled : Bool
  deriving DecidableEq, Repr

/-- One scheduling decision. -/
inductive Action where
  /-- Task `k` runs from its start up to its send or its return. -/
  | task (k : Nat)
  /-- The send of task `k` meets the receive `winner := <-msg`. -/
  | recv (k : Nat)
  /-- The body of `Any` takes its next step. -/
  | main
  deriving DecidableEq, Repr

/-- The state right after `Any` has started one task per file: no channel operation has
happened, and the derived context is done only if the caller's context is. -/
def Any.init (ctx : Context) (files : List String) : System :=
  ⟨files.map TaskState.ready, .receiving, ctx.done⟩

/-- One step of a call of `Any`. A decision that is not enabled leaves the state as it
is: a send on the unbuffered `msg` proceeds only together with the single receive. -/
def Any.step (fs : FileSystem) (phrase : String) (s : System) : Action → System
  | .task k =>
    match s.tasks[k]? with
    | some (.ready filename) =>
      match Any.task ⟨s.cancelled⟩ fs phrase filename with
      | .error e => { s with tasks := s.tasks.set k (.panicked e) }
      | .ok none => { s with tasks := s.tasks.set k .finished }
      | .ok (some m) => { s with tasks := s.tasks.set k (.sending m) }
    | _ => s
  | .recv k =>
    match s.main, s.tasks[k]? with
    | .receiving, some (.sending m) =>
      { s with tasks := s.tasks.set k .finished, main := .received m }
    | _, _ => s
  | .main =>
    match s.main with
    | .receiving => s
    | .received winner => { s with main := .returned winner, cancelled := true }
    | .returned winner => { s with main := .delivered winner }
    | .delivered _ => s

/-- A call of `Any` under a schedule. -/
def Any.run (fs : FileSystem) (phrase : String) (s : System) (schedule : List Action) :
    System :=
  schedule.foldl (Any.step fs phrase) s

/-! ## The loop of `searchInLine`, one iteration at a time -/

theorem index_ofNat (s : List Rune) (k : Nat) (h : k < s.length) :
    index s (k : Int) = .ok s[k] := by
  have h0 : ¬ ((k : Int) < 0) := by omega
  simp [index, h0, h]

/-- One iteration of the loop from an in-range state. -/
theorem loop_step (text phrase : List Rune) (all : Bool) (f i j : Nat) (acc : List Int)
    (hi : i < text.length) (hj : j < phrase.length) :
    searchInLine.loop text phrase all (f + 1) i j acc =
      if text[i] = phrase[j] then
        if j + 1 = phrase.length then
          if all then
            searchInLine.loop text phrase all f ((i + 1 : Nat) : Int) ((0 : Nat) : Int)
              (acc ++ [(i : Int) - j])
          else .ok (acc ++ [(i : Int) - j])
        else searchInLine.loop text phrase all f ((i + 1 : Nat) : Int) ((j + 1 : Nat) : Int) acc
      else if j = 0 then
        searchInLine.loop text phrase all f ((i + 1 : Nat) : Int) ((0 : Nat) : Int) acc
      else searchInLine.loop text phrase all f (i : Int) ((0 : Nat) : Int) acc := by
  have hi' : (i : Int) < (text.length : Int) := by omega
  rw [searchInLine.loop, if_pos hi', index_ofNat text i hi, index_ofNat phrase j hj]
  simp only []
  by_cases hab : text[i] = phrase[j]
  · rw [if_pos hab, if_pos hab]
    by_cases hl : j + 1 = phrase.length
    · have hl' : (j : Int) = (phrase.length : Int) - 1 := by omega
      rw [if_pos hl, if_pos hl']
      cases all <;> simp
    · have hl' : ¬ ((j : Int) = (phrase.length : Int) - 1) := by omega
      rw [if_neg hl, if_neg hl']
      simp
  · rw [if_neg hab, if_neg hab]
    by_cases h0 : j = 0
    · subst h0
      simp
    · have h0' : ¬ ((j : Int) = 0) := by omega
      rw [if_neg h0, if_neg h0']
      simp

/-- Leaving the loop: `i` has reached the end of the line. -/
theorem loop_exit (text phrase : List Rune) (all : Bool) (f i : Nat) (j : Int) (acc : List Int)
    (hi : text.length ≤ i) :
    searchInLine.loop text phrase all (f + 1) i j acc = .ok acc := by
  have hi' : ¬ ((i : Int) < (text.length : Int)) := by omega
  rw [searchInLine.loop, if_neg hi']

/-- Invariant rule for the loop: an invariant kept by every branch of the body holds
when the loop is left, and the loop is left within `2 * (len(line) - i) + 2` iterations. -/
theorem loop_rule (text phrase : List Rune) (all : Bool)
    (Inv : Nat → Nat → List Int → Prop) (Post : List Int → Prop)
    (hexit : ∀ j acc, Inv text.length j acc → Post acc)
    (hfull : ∀ i j acc (hi : i < text.length) (hj : j < phrase.length), Inv i j acc →
      text[i] = phrase[j] → j + 1 = phrase.length →
      if all then Inv (i + 1) 0 (acc ++ [(i : Int) - j]) else Post (acc ++ [(i : Int) - j]))
    (hpart : ∀ i j acc (hi : i < text.length) (hj : j < phrase.length), Inv i j acc →
      text[i] = phrase[j] → j + 1 ≠ phrase.length → Inv (i + 1) (j + 1) acc)
    (hmis0 : ∀ i acc (hi : i < text.length) (hj : 0 < phrase.length), Inv i 0 acc →
      text[i] ≠ phrase[0] → Inv (i + 1) 0 acc)
    (hmisj : ∀ i j acc (hi : i < text.length) (hj : j < phrase.length), Inv i j acc →
      text[i] ≠ phrase[j] → j ≠ 0 → Inv i 0 acc) :
    ∀ (f i j : Nat) (acc : List Int), i ≤ text.length → j < phrase.length → Inv i j acc →
      2 * (text.length - i) + (if j = 0 then 0 else 1) < f →
      ∃ r, searchInLine.loop text phrase all f i j acc = .ok r ∧ Post r := by
  intro f
  induction f with
  | zero => intro i j acc _ _ _ hf; omega
  | succ f ih =>
    intro i j acc hi hj hinv hf
    by_cases hlt : i < text.length
    · rw [loop_step text phrase all f i j acc hlt hj]
      by_cases hab : text[i] = phrase[j]
      · rw [if_pos hab]
        by_cases hl : j + 1 = phrase.length
        · rw [if_pos hl]
          have h := hfull i j acc hlt hj hinv hab hl
          cases all with
          | true =>
            simp only [if_true] at h ⊢
            exact ih (i + 1) 0 _ (by omega) (by omega) h (by simp; split at hf <;> omega)
          | false =>
            simp only [Bool.false_eq_true, if_false] at h ⊢
            exact ⟨_, rfl, h⟩
        · rw [if_neg hl]
          exact ih (i + 1) (j + 1) acc (by omega) (by omega) (hpart i j acc hlt hj hinv hab hl)
            (by simp; split at hf <;> omega)
      · rw [if_neg hab]
        by_cases h0 : j = 0
        · subst h0
          rw [if_pos rfl]
          exact ih (i + 1) 0 acc (by omega) hj (hmis0 i acc hlt hj hinv hab)
            (by simp at hf ⊢; omega)
        · rw [if_neg h0]
          exact ih i 0 acc hi (by omega) (hmisj i j acc hlt hj hinv hab h0)
            (by simp [h0] at hf ⊢; omega)
    · have hie : i = text.length := by omega
      subst hie
      rw [loop_exit text phrase all f _ j acc (le_refl _)]
      exact ⟨acc, rfl, hexit j acc hinv⟩

/-- The invariant rule for a whole call of `searchInLine` with a non-empty phrase. -/
theorem searchInLine_rule (ctx : Context) (text phrase : List Rune) (all : Bool)
    (hp : phrase ≠ [])
    (Inv : Nat → Nat → List Int → Prop) (Post : List Int → Prop)
    (hinit : Inv 0 0 [])
    (hexit : ∀ j acc, Inv text.length j acc → Post acc)
    (hfull : ∀ i j acc (hi : i < text.length) (hj : j < phrase.length), Inv i j acc →
      text[i] = phrase[j] → j + 1 = phrase.length →
      if all then Inv (i + 1) 0 (acc ++ [(i : Int) - j]) else Post (acc ++ [(i : Int) - j]))
    (hpart : ∀ i j acc (hi : i < text.length) (hj : j < phrase.length), Inv i j acc →
      text[i] = phrase[j] → j + 1 ≠ phrase.length → Inv (i + 1) (j + 1) acc)
    (hmis0 : ∀ i acc (hi : i < text.length) (hj : 0 < phrase.length), Inv i 0 acc →
      text[i] ≠ phrase[0] → Inv (i + 1) 0 acc)
    (hmisj : ∀ i j acc (hi : i < text.length) (hj : j < phrase.length), Inv i j acc →
      text[i] ≠ phrase[j] → j ≠ 0 → Inv i 0 acc) :
    ∃ r, searchInLine ctx text phrase all = .ok r ∧ Post r := by
  have hlen : 0 < phrase.length := List.length_pos.mpr hp
  have h := loop_rule text phrase all Inv Post hexit hfull hpart hmis0 hmisj
    (2 * text.length + 1) 0 0 [] (Nat.zero_le _) hlen hinit (by simp)
  simpa [searchInLine] using h

/-- Every offset found is an occurrence, and consecutive offsets are at least
`len(phrase)` apart. -/
theorem searchInLine_sound (ctx : Context) (text phrase : List Rune) (all : Bool)
    (hp : phrase ≠ []) :
    ∃ r, searchInLine ctx text phrase all = .ok r ∧
      (∀ k ∈ r, occursAt text phrase k) ∧
      r.Pairwise (fun a b => a + (phrase.length : Int) ≤ b) := by
  refine searchInLine_rule ctx text phrase all hp
    (fun i j acc => j ≤ i ∧ (∀ t : Nat, t < j → text[i - j + t]? = phrase[t]?) ∧
      (∀ k ∈ acc, occursAt text phrase k ∧ k + (phrase.length : Int) ≤ (i : Int) - j) ∧
      acc.Pairwise (fun a b => a + (phrase.length : Int) ≤ b))
    _ ?_ ?_ ?_ ?_ ?_ ?_
  · exact ⟨le_refl _, fun t ht => by omega, fun k hk => by simp at hk, List.Pairwise.nil⟩
  · rintro j acc ⟨_, _, hacc, hpw⟩
    exact ⟨fun k hk => (hacc k hk).1, hpw⟩
  · rintro i j acc hi hj ⟨hji, hpre, hacc, hpw⟩ hab hl
    have hocc : occursAt text phrase ((i : Int) - j) := by
      refine ⟨by omega, by omega, fun t ht => ?_⟩
      have e : ((i : Int) - j).toNat = i - j := by omega
      rw [e]
      by_cases htj : t < j
      · exact hpre t htj
      · have : t = j := by omega
        subst this
        have e2 : i - t + t = i := by omega
        rw [e2, List.getElem?_eq_getElem hi, List.getElem?_eq_getElem hj, hab]
    have hnew : ∀ k ∈ acc ++ [(i : Int) - j], occursAt text phrase k ∧
        k + (phrase.length : Int) ≤ ((i + 1 : Nat) : Int) - (0 : Nat) := by
      intro k hk
      rcases List.mem_append.mp hk with hk | hk
      · exact ⟨(hacc k hk).1, by have := (hacc k hk).2; omega⟩
      · have : k = (i : Int) - j := by simpa using hk
        subst this
        exact ⟨hocc, by omega⟩
    have hpw' : (acc ++ [(i : Int) - j]).Pairwise (fun a b => a + (phrase.length : Int) ≤ b) := by
      rw [List.pairwise_append]
      refine ⟨hpw, List.pairwise_singleton _ _, fun a ha b hb => ?_⟩
      have : b = (i : Int) - j := by simpa using hb
      subst this
      exact (hacc a ha).2
    cases all with
    | true =>
      simp only [if_true]
      exact ⟨Nat.zero_le _, fun t ht => by omega, hnew, hpw'⟩
    | false =>
      simp only [Bool.false_eq_true, if_false]
      exact ⟨fun k hk => (hnew k hk).1, hpw'⟩
  · rintro i j acc hi hj ⟨hji, hpre, hacc, hpw⟩ hab hl
    refine ⟨by omega, fun t ht => ?_, fun k hk => ⟨(hacc k hk).1, ?_⟩, hpw⟩
    · have e : i + 1 - (j + 1) + t = i - j + t := by omega
      rw [e]
      by_cases htj : t < j
      · exact hpre t htj
      · have : t = j := by omega
        subst this
        have e2 : i - t + t = i := by omega
        rw [e2, List.getElem?_eq_getElem hi, List.getElem?_eq_getElem hj, hab]
    · have := (hacc k hk).2
      omega
  · rintro i acc hi hj ⟨hji, hpre, hacc, hpw⟩ hab
    refine ⟨by omega, fun t ht => by omega, fun k hk => ⟨(hacc k hk).1, ?_⟩, hpw⟩
    have := (hacc k hk).2
    omega
  · rintro i j acc hi hj ⟨hji, hpre, hacc, hpw⟩ hab h0
    refine ⟨by omega, fun t ht => by omega, fun k hk => ⟨(hacc k hk).1, ?_⟩, hpw⟩
    have := (hacc k hk).2
    omega

/-- The loop only ever appends to `indexes`. -/
theorem loop_extends (text phrase : List Rune) (all : Bool) (f i j : Nat) (acc : List Int)
    (hi : i ≤ text.length) (hj : j < phrase.length)
    (hf : 2 * (text.length - i) + (if j = 0 then 0 else 1) < f) :
    ∃ r, searchInLine.loop text phrase all f i j acc = .ok r ∧ ∃ r', r = acc ++ r' := by
  refine loop_rule text phrase all (fun _ _ a => ∃ r', a = acc ++ r') _ ?_ ?_ ?_ ?_ ?_
    f i j acc hi hj ⟨[], by simp⟩ hf
  · exact fun _ _ h => h
  · rintro i j a _ _ ⟨r', rfl⟩ _ _
    cases all <;> exact ⟨r' ++ [(i : Int) - j], by simp⟩
  · exact fun _ _ _ _ _ h _ _ => h
  · exact fun _ _ _ _ h _ => h
  · exact fun _ _ _ _ _ h _ _ => h

/-- Stopping at the first match yields the first element of the exhaustive scan. -/
theorem loop_first_all (text phrase : List Rune) :
    ∀ (f i j : Nat), i ≤ text.length → j < phrase.length →
      2 * (text.length - i) + (if j = 0 then 0 else 1) < f →
      ∃ r, searchInLine.loop text phrase true f i j [] = .ok r ∧
        searchInLine.loop text phrase false f i j [] = .ok (r.take 1) := by
  intro f
  induction f with
  | zero => intro i j _ _ hf; omega
  | succ f ih =>
    intro i j hi hj hf
    by_cases hlt : i < text.length
    · rw [loop_step text phrase true f i j [] hlt hj, loop_step text phrase false f i j [] hlt hj]
      by_cases hab : text[i] = phrase[j]
      · rw [if_pos hab, if_pos hab]
        by_cases hl : j + 1 = phrase.length
        · rw [if_pos hl, if_pos hl]
          simp only [if_true, Bool.false_eq_true, if_false, List.nil_append]
          obtain ⟨r, hr, r', hr'⟩ := loop_extends text phrase true f (i + 1) 0 [(i : Int) - j]
            (by omega) (by omega) (by simp; split at hf <;> omega)
          exact ⟨r, hr, by rw [hr']; rfl⟩
        · rw [if_neg hl, if_neg hl]
          exact ih (i + 1) (j + 1) (by omega) (by omega) (by simp; split at hf <;> omega)
      · rw [if_neg hab, if_neg hab]
        by_cases h0 : j = 0
        · subst h0
          rw [if_pos rfl, if_pos rfl]
          exact ih (i + 1) 0 (by omega) hj (by simp at hf ⊢; omega)
        · rw [if_neg h0, if_neg h0]
          exact ih i 0 hi (by omega) (by simp [h0] at hf ⊢; omega)
    · rw [loop_exit text phrase true f i j [] (by omega),
        loop_exit text phrase false f i j [] (by omega)]
      exact ⟨[], rfl, rfl⟩

/-- In first-match mode `searchInLine` returns the first offset of the exhaustive mode. -/
theorem searchInLine_first_all (ctx : Context) (text phrase : List Rune) (hp : phrase ≠ []) :
    ∃ r, searchInLine ctx text phrase true = .ok r ∧
      searchInLine ctx text phrase false = .ok (r.take 1) := by
  have hlen : 0 < phrase.length := List.length_pos.mpr hp
  have h := loop_first_all text phrase (2 * text.length + 1) 0 0 (Nat.zero_le _) hlen (by simp)
  simpa [searchInLine] using h

/-- The scan of `m` copies of `c` for `n` copies of `c` finds the multiples of `n`. -/
theorem searchInLine_replicate (ctx : Context) (c : Rune) (n m : Nat) (hn : 1 ≤ n) :
    searchInLine ctx (List.replicate m c) (List.replicate n c) true =
      .ok ((List.range (m / n)).map (fun q : Nat => (q : Int) * n)) := by
  have hp : List.replicate n c ≠ [] := by
    intro h
    have := congrArg List.length h
    simp at this
    omega
  obtain ⟨r, hr, hpost⟩ := searchInLine_rule ctx (List.replicate m c) (List.replicate n c) true hp
    (fun i j acc => j < n ∧ ∃ q : Nat, i = q * n + j ∧
      acc = (List.range q).map (fun q : Nat => (q : Int) * n))
    (fun r => r = (List.range (m / n)).map (fun q : Nat => (q : Int) * n))
    ⟨by omega, 0, by simp, by simp⟩
    (by
      rintro j acc ⟨hj, q, hq, rfl⟩
      simp only [List.length_replicate] at hq
      have : m / n = q := by
        rw [hq, Nat.add_comm, Nat.add_mul_div_right _ _ (by omega : 0 < n), Nat.div_eq_of_lt hj]
        simp
      rw [this])
    (by
      rintro i j acc hi hj ⟨hjn, q, hq, rfl⟩ _ hl
      simp only [List.length_replicate] at hl hi hj
      simp only [if_true]
      refine ⟨by omega, q + 1, ?_, ?_⟩
      · rw [hq, Nat.add_mul]; omega
      · rw [List.range_succ, List.map_append]
        congr 1
        simp only [List.map_cons, List.map_nil, List.cons.injEq, and_true]
        rw [hq]; push_cast; ring)
    (by
      rintro i j acc hi hj ⟨hjn, q, hq, rfl⟩ _ hl
      simp only [List.length_replicate] at hl hi hj
      exact ⟨by omega, q, by omega, rfl⟩)
    (by
      rintro i acc hi hj _ hab
      simp at hab)
    (by
      rintro i j acc hi hj _ hab _
      simp at hab)
  rw [hr, hpost]

/-! ## The loops of `search` -/

theorem toList_ne_nil (phrase : String) (hp : phrase ≠ "") : phrase.toList ≠ [] := by
  intro h
  apply hp
  cases phrase
  simp_all

/-- In exhaustive mode the range loop appends one `Result` per offset and falls through. -/
theorem range_all (phrase line : String) (lineNum : Int) (res : List Int) :
    ∀ occ : List Result, search.range phrase line lineNum true res occ =
      .next (occ ++ res.map (fun k => ⟨phrase, line, lineNum, k + 1⟩)) := by
  induction res with
  | nil => intro occ; simp [search.range]
  | cons k rest ih =>
    intro occ
    simp [search.range, ih]

/-- Exhaustive `searchInLine` returns the list `lineOffsets` names. -/
theorem searchInLine_lineOffsets (ctx : Context) (phrase line : String) (hp : phrase ≠ "") :
    searchInLine ctx line.toList phrase.toList true = .ok (lineOffsets ctx phrase line true) := by
  obtain ⟨r, hr, _⟩ := searchInLine_sound ctx line.toList phrase.toList true
    (toList_ne_nil phrase hp)
  rw [lineOffsets, hr]

theorem resultsFrom_cons (ctx : Context) (phrase : String) (start : Nat) (line : String)
    (rest : List String) :
    resultsFrom ctx phrase start (line :: rest) =
      (lineOffsets ctx phrase line true).map
          (fun k => (⟨phrase, line, (start : Int) + 1, k + 1⟩ : Result)) ++
        resultsFrom ctx phrase (start + 1) rest := by
  simp [resultsFrom, List.enumFrom_cons, List.flatMap_cons, lineResults]

/-- The scanner loop of `search` in exhaustive mode. -/
theorem scan_all (ctx : Context) (phrase : String) (hp : phrase ≠ "") (file : List String) :
    ∀ (start : Nat) (occ : List Result),
      search.scan ctx phrase true file ((start : Int) + 1) occ =
        .ok (if occ ++ resultsFrom ctx phrase start file = [] then
            ([], some Error.ErrNoWordInFile)
          else (occ ++ resultsFrom ctx phrase start file, none)) := by
  induction file with
  | nil =>
    intro start occ
    cases occ <;> simp [search.scan, resultsFrom]
  | cons line rest ih =>
    intro start occ
    have hcast : (start : Int) + 1 + 1 = ((start + 1 : Nat) : Int) + 1 := by push_cast; ring
    rw [search.scan, searchInLine_lineOffsets ctx phrase line hp, resultsFrom_cons]
    simp only []
    by_cases hres : (lineOffsets ctx phrase line true).length ≠ 0
    · rw [if_pos hres, range_all]
      simp only []
      rw [hcast, ih (start + 1), List.append_assoc]
    · rw [if_neg hres]
      have hnil : lineOffsets ctx phrase line true = [] := by
        simpa using hres
      rw [hcast, ih (start + 1), hnil]
      simp

/-- The scanner loop of `search` in first-match mode. -/
theorem scan_first (ctx : Context) (phrase : String) (hp : phrase ≠ "") (file : List String) :
    ∀ (start : Nat),
      search.scan ctx phrase false file ((start : Int) + 1) [] =
        .ok (if resultsFrom ctx phrase start file = [] then
            ([], some Error.ErrNoWordInFile)
          else ((resultsFrom ctx phrase start file).take 1, none)) := by
  induction file with
  | nil =>
    intro start
    simp [search.scan, resultsFrom]
  | cons line rest ih =>
    intro start
    have hcast : (start : Int) + 1 + 1 = ((start + 1 : Nat) : Int) + 1 := by push_cast; ring
    obtain ⟨r, hr, hfirst⟩ := searchInLine_first_all ctx line.toList phrase.toList
      (toList_ne_nil phrase hp)
    have hoff : lineOffsets ctx phrase line true = r := by rw [lineOffsets, hr]
    rw [search.scan, hfirst, resultsFrom_cons, hoff]
    simp only []
    cases r with
    | nil =>
      simp only [List.take_nil, List.length_nil, ne_eq, not_true_eq_false, if_false,
        List.map_nil, List.nil_append]
      rw [hcast, ih (start + 1)]
    | cons k r' =>
      simp [search.range]

/-- The outcome of `search` in exhaustive mode. -/
theorem search_all_eq (ctx : Context) (file : List String) (phrase : String) (hp : phrase ≠ "") :
    search ctx file phrase true =
      .ok (if fileResults ctx phrase file = [] then ([], some Error.ErrNoWordInFile)
        else (fileResults ctx phrase file, none)) := by
  have h := scan_all ctx phrase hp file 0 []
  simpa [search, fileResults] using h

/-- The outcome of `search` in first-match mode. -/
theorem search_first_eq (ctx : Context) (file : List String) (phrase : String)
    (hp : phrase ≠ "") :
    search ctx file phrase false =
      .ok (if fileResults ctx phrase file = [] then ([], some Error.ErrNoWordInFile)
        else ((fileResults ctx phrase file).take 1, none)) := by
  have h := scan_first ctx phrase hp file 0
  simpa [search, fileResults] using h

/-- Where an element of `resultsFrom` comes from. -/
theorem mem_resultsFrom (ctx : Context) (phrase : String) (r : Result) (file : List String) :
    ∀ start : Nat, r ∈ resultsFrom ctx phrase start file →
      ∃ line ∈ file, ∃ k ∈ lineOffsets ctx phrase line true,
        r.Phrase = phrase ∧ r.Line = line ∧ r.ColNum = k + 1 ∧ (start : Int) + 1 ≤ r.LineNum := by
  induction file with
  | nil => intro start h; simp [resultsFrom] at h
  | cons line rest ih =>
    intro start h
    rw [resultsFrom_cons, List.mem_append] at h
    rcases h with h | h
    · obtain ⟨k, hk, rfl⟩ := List.mem_map.mp h
      exact ⟨line, List.mem_cons_self _ _, k, hk, rfl, rfl, rfl, le_refl _⟩
    · obtain ⟨l, hl, k, hk, h1, h2, h3, h4⟩ := ih (start + 1) h
      refine ⟨l, List.mem_cons_of_mem _ hl, k, hk, h1, h2, h3, ?_⟩
      push_cast at h4
      omega

/-- No result at all means no offset on any line. -/
theorem resultsFrom_eq_nil_iff (ctx : Context) (phrase : String) (file : List String) :
    ∀ start : Nat, resultsFrom ctx phrase start file = [] ↔
      ∀ line ∈ file, lineOffsets ctx phrase line true = [] := by
  induction file with
  | nil => intro start; simp [resultsFrom]
  | cons line rest ih =>
    intro start
    rw [resultsFrom_cons, List.append_eq_nil, ih (start + 1)]
    simp

/-- The offsets of one line in exhaustive mode are occurrences, strictly increasing. -/
theorem lineOffsets_spec (ctx : Context) (phrase line : String) (hp : phrase ≠ "") :
    (∀ k ∈ lineOffsets ctx phrase line true, occursAt line.toList phrase.toList k) ∧
      (lineOffsets ctx phrase line true).Pairwise (fun a b => a < b) := by
  obtain ⟨r, hr, hocc, hpw⟩ := searchInLine_sound ctx line.toList phrase.toList true
    (toList_ne_nil phrase hp)
  have hoff : lineOffsets ctx phrase line true = r := by rw [lineOffsets, hr]
  have hlen : 0 < phrase.toList.length := List.length_pos.mpr (toList_ne_nil phrase hp)
  rw [hoff]
  exact ⟨hocc, hpw.imp (fun h => by omega)⟩

/-- The results of a file are in appearance order. -/
theorem resultsFrom_pairwise (ctx : Context) (phrase : String) (hp : phrase ≠ "")
    (file : List String) :
    ∀ start : Nat, (resultsFrom ctx phrase start file).Pairwise appearsBefore := by
  induction file with
  | nil => intro start; simp [resultsFrom]
  | cons line rest ih =>
    intro start
    rw [resultsFrom_cons, List.pairwise_append]
    refine ⟨?_, ih (start + 1), ?_⟩
    · rw [List.pairwise_map]
      refine (lineOffsets_spec ctx phrase line hp).2.imp (fun h => ?_)
      right
      exact ⟨rfl, by simpa using h⟩
    · intro a ha b hb
      obtain ⟨k, _, rfl⟩ := List.mem_map.mp ha
      obtain ⟨_, _, _, _, _, _, _, h4⟩ := mem_resultsFrom ctx phrase b rest (start + 1) hb
      left
      push_cast at h4
      show (start : Int) + 1 < b.LineNum
      omega

/-- With an empty phrase, a file of empty lines is scanned to its end without a match. -/
theorem scan_empty_phrase (ctx : Context) (all : Bool) (n : Nat) :
    ∀ lineNum : Int, search.scan ctx "" all (List.replicate n "") lineNum [] =
      .ok ([], some Error.ErrNoWordInFile) := by
  induction n with
  | zero => intro lineNum; simp [search.scan]
  | succ n ih =>
    intro lineNum
    have h : searchInLine ctx "".toList "".toList all = .ok [] := by
      simp [searchInLine, searchInLine.loop]
    rw [List.replicate_succ, search.scan, h]
    simp only [List.length_nil, ne_eq, not_true_eq_false, if_false]
    exact ih (lineNum + 1)

/-- What an element of `fileResults` is. -/
theorem mem_fileResults (ctx : Context) (phrase : String) (hp : phrase ≠ "")
    (file : List String) (r : Result) (h : r ∈ fileResults ctx phrase file) :
    r.Phrase = phrase ∧ r.Line ∈ file ∧ 1 ≤ r.LineNum ∧ 1 ≤ r.ColNum ∧
      occursAt r.Line.toList phrase.toList (r.ColNum - 1) := by
  obtain ⟨line, hl, k, hk, h1, h2, h3, h4⟩ := mem_resultsFrom ctx phrase r file 0 h
  have hocc := (lineOffsets_spec ctx phrase line hp).1 k hk
  have hk0 : 0 ≤ k := hocc.1
  have e : r.ColNum - 1 = k := by omega
  rw [h2, e]
  exact ⟨h1, hl, by simpa using h4, by omega, hocc⟩

/-- Exhaustive `searchInLine` finds nothing exactly when `lineOffsets` is empty. -/
theorem lineOffsets_eq_nil_iff (ctx : Context) (phrase line : String) (hp : phrase ≠ "") :
    lineOffsets ctx phrase line true = [] ↔
      searchInLine ctx line.toList phrase.toList true = .ok [] := by
  rw [searchInLine_lineOffsets ctx phrase line hp]
  constructor
  · intro h; rw [h]
  · intro h; exact Except.ok.inj h

/-! ## The claims -/

/-- C1 (the code departs from the claim): on line `aaab` and phrase `aab` exhaustive
`searchInLine` returns no offset, while the reference leftmost non-overlapping scan
returns offset 1; `search` in All mode then reports `ErrNoWordInFile` for a file that
contains the phrase. -/
theorem searchInLine_all_differs_from_referenceScan :
    searchInLine ⟨false⟩ "aaab".toList "aab".toList true = .ok [] ∧
      referenceScan "aaab".toList "aab".toList = [1] ∧
      search ⟨false⟩ ["aaab"] "aab" true = .ok ([], some Error.ErrNoWordInFile) := by
  decide

/-- C2 (the code departs from the claim): on line `aaab` and phrase `aab`,
`searchInLine` with `all = false` returns no offset although the phrase occurs in the
line at offset 1. -/
theorem searchInLine_first_misses_occurrence :
    searchInLine ⟨false⟩ "aaab".toList "aab".toList false = .ok [] ∧
      occursAt "aaab".toList "aab".toList 1 := by
  decide

/-- C3: for every line and non-empty phrase, in either mode, every offset `k` that
`searchInLine` returns is an occurrence of the phrase (`k + len(phrase) ≤ len(line)` and
`line[k+t] = phrase[t]` for all `t < len(phrase)`); and every `Result` that `search`
returns carries the phrase and has it starting at code point `ColNum` (1-based) of its
`Line`. -/
theorem searchInLine_offsets_are_occurrences (ctx : Context) (text ph : List Rune)
    (file : List String) (phrase : String) (all : Bool) (hph : ph ≠ []) (hp : phrase ≠ "") :
    (∃ res, searchInLine ctx text ph all = .ok res ∧ ∀ k ∈ res, occursAt text ph k) ∧
      ∃ rs err, search ctx file phrase all = .ok (rs, err) ∧
        ∀ r ∈ rs, r.Phrase = phrase ∧ 1 ≤ r.ColNum ∧
          occursAt r.Line.toList phrase.toList (r.ColNum - 1) := by
  constructor
  · obtain ⟨r, hr, hocc, _⟩ := searchInLine_sound ctx text ph all hph
    exact ⟨r, hr, hocc⟩
  · have key : ∀ r ∈ fileResults ctx phrase file, r.Phrase = phrase ∧ 1 ≤ r.ColNum ∧
        occursAt r.Line.toList phrase.toList (r.ColNum - 1) := fun r hr =>
      let h := mem_fileResults ctx phrase hp file r hr
      ⟨h.1, h.2.2.2.1, h.2.2.2.2⟩
    cases all with
    | true =>
      rw [search_all_eq ctx file phrase hp]
      by_cases hnil : fileResults ctx phrase file = []
      · rw [if_pos hnil]
        exact ⟨[], _, rfl, fun r hr => by simp at hr⟩
      · rw [if_neg hnil]
        exact ⟨_, _, rfl, key⟩
    | false =>
      rw [search_first_eq ctx file phrase hp]
      by_cases hnil : fileResults ctx phrase file = []
      · rw [if_pos hnil]
        exact ⟨[], _, rfl, fun r hr => by simp at hr⟩
      · rw [if_neg hnil]
        exact ⟨_, _, rfl, fun r hr => key r (List.mem_of_mem_take hr)⟩

/-- C3 at line `a cat sat`, phrase `cat`, exhaustive mode. -/
theorem searchInLine_offsets_are_occurrences_witness :
    ("cat".toList ≠ [] ∧ "cat" ≠ "") ∧
      (∃ res, searchInLine ⟨false⟩ "a cat sat".toList "cat".toList true = .ok res ∧
        ∀ k ∈ res, occursAt "a cat sat".toList "cat".toList k) ∧
      ∃ rs err, search ⟨false⟩ ["a cat sat"] "cat" true = .ok (rs, err) ∧
        ∀ r ∈ rs, r.Phrase = "cat" ∧ 1 ≤ r.ColNum ∧
          occursAt r.Line.toList "cat".toList (r.ColNum - 1) :=
  ⟨⟨by decide, by decide⟩,
    searchInLine_offsets_are_occurrences ⟨false⟩ "a cat sat".toList "cat".toList
      ["a cat sat"] "cat" true (by decide) (by decide)⟩

/-- C4: for every code point `c`, every `n ≥ 1` and every `m`, exhaustive
`searchInLine` on the line of `m` copies of `c` and the phrase of `n` copies of `c`
returns exactly `[0, n, 2n, ..., (m / n - 1) * n]`. -/
theorem searchInLine_overlap_pinned (ctx : Context) (c : Rune) (n m : Nat) (hn : 1 ≤ n) :
    searchInLine ctx (List.replicate m c) (List.replicate n c) true =
      .ok ((List.range (m / n)).map (fun q : Nat => (q : Int) * n)) :=
  searchInLine_replicate ctx c n m hn

/-- C4 at phrase `aa` against line `aaaa`: the offsets are `[0, 2]`. -/
theorem searchInLine_overlap_pinned_witness :
    1 ≤ 2 ∧ searchInLine ⟨false⟩ "aaaa".toList "aa".toList true = .ok [0, 2] :=
  ⟨by decide, searchInLine_overlap_pinned ⟨false⟩ 'a' 2 4 (by decide)⟩

/-- C5 as stated fails: with an empty phrase on the empty line `searchInLine` returns
the empty list of offsets and does not fail. -/
theorem searchInLine_empty_phrase_not_rejected :
    searchInLine ⟨false⟩ "".toList "".toList true = .ok [] ∧
      ¬ ∃ e, searchInLine ⟨false⟩ "".toList "".toList true = .error e := by
  have h : searchInLine ⟨false⟩ "".toList "".toList true = .ok [] := by decide
  refine ⟨h, ?_⟩
  rintro ⟨e, he⟩
  rw [h] at he
  cases he

/-- C5 as amended: with an empty phrase, `searchInLine` on the empty line returns the
empty list of offsets in either mode, and `search` over a file of `n` empty lines
(`n = 0` included) returns no results together with `ErrNoWordInFile`. -/
theorem search_empty_phrase_empty_lines (ctx : Context) (all : Bool) (n : Nat) :
    searchInLine ctx "".toList "".toList all = .ok [] ∧
      search ctx (List.replicate n "") "" all = .ok ([], some Error.ErrNoWordInFile) :=
  ⟨by simp [searchInLine, searchInLine.loop], scan_empty_phrase ctx all n 1⟩

/-- C6: for every file and non-empty phrase with at least one match, `search` in All
mode returns, with a nil error, exactly the concatenation over the lines in file order
of one `Result` per offset `k` that `searchInLine` returns for that line, with `Phrase`
the phrase, `Line` the line, `LineNum` the 1-based position of the line and
`ColNum = k + 1`. -/
theorem search_all_one_based (ctx : Context) (file : List String) (phrase : String)
    (hp : phrase ≠ "") (hm : ∃ line ∈ file, lineOffsets ctx phrase line true ≠ []) :
    (∀ line ∈ file,
        searchInLine ctx line.toList phrase.toList true =
          .ok (lineOffsets ctx phrase line true)) ∧
      search ctx file phrase true =
        .ok (file.enum.flatMap (fun p =>
            (lineOffsets ctx phrase p.2 true).map
              (fun k => (⟨phrase, p.2, (p.1 : Int) + 1, k + 1⟩ : Result))),
          none) := by
  refine ⟨fun line _ => searchInLine_lineOffsets ctx phrase line hp, ?_⟩
  have hne : fileResults ctx phrase file ≠ [] := by
    intro h
    obtain ⟨line, hl, hoff⟩ := hm
    exact hoff ((resultsFrom_eq_nil_iff ctx phrase file 0).mp h line hl)
  rw [search_all_eq ctx file phrase hp, if_neg hne]
  rfl

/-- C6 at phrase `cat` in line `a cat sat` on file line 1: `LineNum` 1 and `ColNum` 3. -/
theorem search_all_one_based_witness :
    ("cat" ≠ "" ∧ ∃ line ∈ ["a cat sat"], lineOffsets ⟨false⟩ "cat" line true ≠ []) ∧
      search ⟨false⟩ ["a cat sat"] "cat" true = .ok ([⟨"cat", "a cat sat", 1, 3⟩], none) :=
  ⟨⟨by decide, by decide⟩,
    (search_all_one_based ⟨false⟩ ["a cat sat"] "cat" (by decide) (by decide)).2⟩

/-- C7: for every file and non-empty phrase, the results of `search` in All mode are in
appearance order: the pairs `(LineNum, ColNum)` increase strictly in lexicographic order
along the list, so no `Result` is repeated. -/
theorem search_all_appearance_order (ctx : Context) (file : List String) (phrase : String)
    (hp : phrase ≠ "") :
    ∃ rs err, search ctx file phrase true = .ok (rs, err) ∧
      rs.Pairwise appearsBefore ∧ rs.Nodup := by
  have hpw : (fileResults ctx phrase file).Pairwise appearsBefore :=
    resultsFrom_pairwise ctx phrase hp file 0
  have hnd : ∀ rs : List Result, rs.Pairwise appearsBefore → rs.Nodup := fun rs h =>
    h.imp (fun {a b} hab heq => by
      subst heq
      rcases hab with h | ⟨_, h⟩ <;> exact lt_irrefl _ h)
  rw [search_all_eq ctx file phrase hp]
  by_cases hnil : fileResults ctx phrase file = []
  · rw [if_pos hnil]
    exact ⟨[], _, rfl, List.Pairwise.nil, List.nodup_nil⟩
  · rw [if_neg hnil]
    exact ⟨_, _, rfl, hpw, hnd _ hpw⟩

/-- C7 on a two-line file with three occurrences of `aa`. -/
theorem search_all_appearance_order_witness :
    "aa" ≠ "" ∧ ∃ rs err, search ⟨false⟩ ["aaaa", "xaa"] "aa" true = .ok (rs, err) ∧
      rs.Pairwise appearsBefore ∧ rs.Nodup :=
  ⟨by decide, search_all_appearance_order ⟨false⟩ ["aaaa", "xaa"] "aa" (by decide)⟩

/-- C8: for every file, non-empty phrase and mode, `search` returns either no results
together with `ErrNoWordInFile` or at least one `Result` together with a nil error; in
All mode `ErrNoWordInFile` is returned exactly when `searchInLine` reports no offset on
every line of the file. -/
theorem search_outcome_wellformed (ctx : Context) (file : List String) (phrase : String)
    (all : Bool) (hp : phrase ≠ "") :
    ∃ rs err, search ctx file phrase all = .ok (rs, err) ∧
      ((rs = [] ∧ err = some Error.ErrNoWordInFile) ∨ (rs ≠ [] ∧ err = none)) ∧
      (all = true → (err = some Error.ErrNoWordInFile ↔
        ∀ line ∈ file, searchInLine ctx line.toList phrase.toList true = .ok [])) := by
  have hiff : fileResults ctx phrase file = [] ↔
      ∀ line ∈ file, searchInLine ctx line.toList phrase.toList true = .ok [] := by
    rw [fileResults, resultsFrom_eq_nil_iff]
    exact forall₂_congr (fun line _ => lineOffsets_eq_nil_iff ctx phrase line hp)
  by_cases hnil : fileResults ctx phrase file = []
  · refine ⟨[], some Error.ErrNoWordInFile, ?_, Or.inl ⟨rfl, rfl⟩, fun _ => ?_⟩
    · cases all
      · rw [search_first_eq ctx file phrase hp, if_pos hnil]
      · rw [search_all_eq ctx file phrase hp, if_pos hnil]
    · exact ⟨fun _ => hiff.mp hnil, fun _ => rfl⟩
  · cases all with
    | true =>
      refine ⟨fileResults ctx phrase file, none, ?_, Or.inr ⟨hnil, rfl⟩, fun _ => ?_⟩
      · rw [search_all_eq ctx file phrase hp, if_neg hnil]
      · exact ⟨fun h => (by cases h), fun h => absurd (hiff.mpr h) hnil⟩
    | false =>
      refine ⟨(fileResults ctx phrase file).take 1, none, ?_, Or.inr ⟨?_, rfl⟩,
        fun h => (by cases h)⟩
      · rw [search_first_eq ctx file phrase hp, if_neg hnil]
      · cases hfr : fileResults ctx phrase file with
        | nil => exact absurd hfr hnil
        | cons a t => simp

/-- C8 on a file without the phrase, in All mode. -/
theorem search_outcome_wellformed_witness :
    "cat" ≠ "" ∧ ∃ rs err, search ⟨false⟩ ["no match here", ""] "cat" true = .ok (rs, err) ∧
      ((rs = [] ∧ err = some Error.ErrNoWordInFile) ∨ (rs ≠ [] ∧ err = none)) ∧
      (true = true → (err = some Error.ErrNoWordInFile ↔
        ∀ line ∈ ["no match here", ""],
          searchInLine ⟨false⟩ line.toList "cat".toList true = .ok [])) :=
  ⟨by decide, search_outcome_wellformed ⟨false⟩ ["no match here", ""] "cat" true (by decide)⟩

/-- C9: for every file and non-empty phrase, `search` in First mode returns
`ErrNoWordInFile` exactly when `search` in All mode does, and otherwise returns, with a
nil error, a single `Result` equal to the first `Result` of the All-mode outcome. -/
theorem search_first_refines_all (ctx : Context) (file : List String) (phrase : String)
    (hp : phrase ≠ "") :
    ∃ ra ea rf ef, search ctx file phrase true = .ok (ra, ea) ∧
      search ctx file phrase false = .ok (rf, ef) ∧
      (ef = some Error.ErrNoWordInFile ↔ ea = some Error.ErrNoWordInFile) ∧
      (ea = some Error.ErrNoWordInFile → rf = []) ∧
      (ea ≠ some Error.ErrNoWordInFile → ef = none ∧ ∃ r, rf = [r] ∧ ra.head? = some r) := by
  rw [search_all_eq ctx file phrase hp, search_first_eq ctx file phrase hp]
  cases hfr : fileResults ctx phrase file with
  | nil =>
    exact ⟨[], some Error.ErrNoWordInFile, [], some Error.ErrNoWordInFile, by simp, by simp,
      Iff.rfl, fun _ => rfl, fun h => absurd rfl h⟩
  | cons a t =>
    exact ⟨a :: t, none, [a], none, by simp, by simp, Iff.rfl, fun h => (by cases h),
      fun _ => ⟨rfl, a, rfl, rfl⟩⟩

/-- C9 on a file whose first match is on its second line. -/
theorem search_first_refines_all_witness :
    "aa" ≠ "" ∧ ∃ ra ea rf ef, search ⟨false⟩ ["x", "aaaa", "aa"] "aa" true = .ok (ra, ea) ∧
      search ⟨false⟩ ["x", "aaaa", "aa"] "aa" false = .ok (rf, ef) ∧
      (ef = some Error.ErrNoWordInFile ↔ ea = some Error.ErrNoWordInFile) ∧
      (ea = some Error.ErrNoWordInFile → rf = []) ∧
      (ea ≠ some Error.ErrNoWordInFile → ef = none ∧ ∃ r, rf = [r] ∧ ra.head? = some r) :=
  ⟨by decide, search_first_refines_all ⟨false⟩ ["x", "aaaa", "aa"] "aa" (by decide)⟩

/-- C10 (the code departs from the claim): with files `a.txt` (no match) and `b.txt`
(a match), when the outcome of `a.txt` arrives first `Any` delivers the zero-valued
placeholder `Result{}` although the First-mode search of `b.txt` finds a match; when the
outcome of `b.txt` arrives first it delivers that match. -/
theorem Any_delivers_placeholder :
    Any ⟨false⟩ sampleFiles "cat" ["a.txt", "b.txt"] = .ok (some Result.zero) ∧
      search ⟨false⟩ ["a cat sat"] "cat" false = .ok ([⟨"cat", "a cat sat", 1, 3⟩], none) ∧
      sampleFiles "b.txt" = some ["a cat sat"] ∧
      Any ⟨false⟩ sampleFiles "cat" ["b.txt", "a.txt"] =
        .ok (some ⟨"cat", "a cat sat", 1, 3⟩) := by
  decide

/-! ## The goroutines of `Any` -/

/-- Once the winner is delivered and no task is still before its `select`, no step
changes the state. -/
theorem step_after_delivery (fs : FileSystem) (phrase : String) (s : System) (w : Result)
    (hmain : s.main = .delivered w)
    (htasks : ∀ t ∈ s.tasks, ∀ filename, t ≠ .ready filename) (a : Action) :
    Any.step fs phrase s a = s := by
  cases a with
  | task k =>
    cases hk : s.tasks[k]? with
    | none => simp [Any.step, hk]
    | some t =>
      have hmem : t ∈ s.tasks := List.getElem?_mem hk
      cases t with
      | ready filename => exact absurd rfl (htasks _ hmem filename)
      | sending m => simp [Any.step, hk]
      | finished => simp [Any.step, hk]
      | panicked e => simp [Any.step, hk]
  | recv k => simp [Any.step, hmain]
  | main => simp [Any.step, hmain]

/-- Once the winner is delivered and no task is still before its `select`, the state
stays as it is under every schedule. -/
theorem run_after_delivery (fs : FileSystem) (phrase : String) (w : Result)
    (schedule : List Action) :
    ∀ s : System, s.main = .delivered w →
      (∀ t ∈ s.tasks, ∀ filename, t ≠ .ready filename) →
      Any.run fs phrase s schedule = s := by
  induction schedule with
  | nil => intro s _ _; rfl
  | cons a rest ih =>
    intro s hmain htasks
    have hstep := step_after_delivery fs phrase s w hmain htasks a
    rw [Any.run, List.foldl_cons, hstep]
    exact ih s hmain htasks

/-- With no task, no step changes the state of `Any`. -/
theorem run_no_task (ctx : Context) (fs : FileSystem) (phrase : String)
    (schedule : List Action) :
    Any.run fs phrase (Any.init ctx []) schedule = Any.init ctx [] := by
  induction schedule with
  | nil => rfl
  | cons a rest ih =>
    have hstep : Any.step fs phrase (Any.init ctx []) a = Any.init ctx [] := by
      cases a <;> simp [Any.step, Any.init]
    rw [Any.run, List.foldl_cons, hstep]
    exact ih

/-- The function `search` does not depend on its context. -/
theorem scan_context_free (ctx ctx' : Context) (phrase : String) (all : Bool)
    (file : List String) :
    ∀ (lineNum : Int) (occ : List Result),
      search.scan ctx phrase all file lineNum occ =
        search.scan ctx' phrase all file lineNum occ := by
  induction file with
  | nil => intro lineNum occ; rfl
  | cons line rest ih =>
    intro lineNum occ
    have h : searchInLine ctx line.toList phrase.toList all =
        searchInLine ctx' line.toList phrase.toList all := rfl
    rw [search.scan, search.scan, h]
    cases searchInLine ctx' line.toList phrase.toList all with
    | error e => rfl
    | ok res =>
      simp only []
      by_cases hres : res.length ≠ 0
      · rw [if_pos hres, if_pos hres]
        cases search.range phrase line lineNum all res occ with
        | ret o => rfl
        | next o => exact ih _ _
      · rw [if_neg hres, if_neg hres]
        exact ih _ _

/-! ## Fuel, and completeness of the scan -/

/-- A run of the loop that ends keeps its result when it is given more fuel. -/
theorem loop_fuel_succ (text phrase : List Rune) (all : Bool) :
    ∀ (f i j : Nat) (acc r : List Int), i ≤ text.length → j < phrase.length →
      searchInLine.loop text phrase all f i j acc = .ok r →
      searchInLine.loop text phrase all (f + 1) i j acc = .ok r := by
  intro f
  induction f with
  | zero =>
    intro i j acc r _ _ h
    simp [searchInLine.loop] at h
  | succ f ih =>
    intro i j acc r hi hj h
    by_cases hlt : i < text.length
    · rw [loop_step text phrase all f i j acc hlt hj] at h
      rw [loop_step text phrase all (f + 1) i j acc hlt hj]
      by_cases hab : text[i] = phrase[j]
      · rw [if_pos hab] at h ⊢
        by_cases hl : j + 1 = phrase.length
        · rw [if_pos hl] at h ⊢
          cases all with
          | true =>
            simp only [if_true] at h ⊢
            exact ih (i + 1) 0 _ r (by omega) (by omega) h
          | false =>
            simp only [Bool.false_eq_true, if_false] at h ⊢
            exact h
        · rw [if_neg hl] at h ⊢
          exact ih (i + 1) (j + 1) acc r (by omega) (by omega) h
      · rw [if_neg hab] at h ⊢
        by_cases h0 : j = 0
        · subst h0
          rw [if_pos rfl] at h ⊢
          exact ih (i + 1) 0 acc r (by omega) hj h
        · rw [if_neg h0] at h ⊢
          exact ih i 0 acc r hi (by omega) h
    · rw [loop_exit text phrase all f i j acc (by omega)] at h
      rw [loop_exit text phrase all (f + 1) i j acc (by omega)]
      exact h

/-- Any fuel from `2 * len(line) + 1` on gives the result of `searchInLine`. -/
theorem loop_enough_fuel (ctx : Context) (text phrase : List Rune) (all : Bool)
    (hp : phrase ≠ []) (r : List Int) (hr : searchInLine ctx text phrase all = .ok r) :
    ∀ f, 2 * text.length + 1 ≤ f → searchInLine.loop text phrase all f 0 0 [] = .ok r := by
  have hlen : 0 < phrase.length := List.length_pos.mpr hp
  intro f hf
  induction f, hf using Nat.le_induction with
  | base => exact hr
  | succ f _ ih =>
    have h := loop_fuel_succ text phrase all f 0 0 [] r (Nat.zero_le _) hlen
      (by simpa using ih)
    simpa using h

/-- Indexing returns a rune exactly for an index in range. -/
theorem index_ok_iff (s : List Rune) (k : Int) :
    (∃ c, index s k = .ok c) ↔ (0 ≤ k ∧ k < s.length) := by
  unfold index
  by_cases hk : k < 0
  · rw [if_pos hk]
    constructor
    · rintro ⟨c, hc⟩
      cases hc
    · intro h
      omega
  · rw [if_neg hk]
    cases hs : s[k.toNat]? with
    | none =>
      have hlen : s.length ≤ k.toNat := List.getElem?_eq_none_iff.mp hs
      constructor
      · rintro ⟨c, hc⟩
        cases hc
      · intro h
        omega
    | some c =>
      have hlen : k.toNat < s.length := by
        by_contra hge
        rw [List.getElem?_eq_none (by omega)] at hs
        cases hs
      exact ⟨fun _ => ⟨by omega, by omega⟩, fun _ => ⟨c, rfl⟩⟩

/-- No occurrence starts strictly inside a matched prefix of the phrase when the first
code point of the phrase does not occur again in it. -/
theorem no_occurrence_inside (text phrase : List Rune)
    (hfresh : ∀ t : Nat, 0 < t → t < phrase.length → phrase[t]? ≠ phrase[0]?)
    (i j : Nat) (hji : j ≤ i) (hj : j ≤ phrase.length)
    (hpre : ∀ t : Nat, t < j → text[i - j + t]? = phrase[t]?)
    (k : Nat) (hocc : occursAt text phrase (k : Int)) (h1 : i < k + j) (h2 : k < i) :
    False := by
  obtain ⟨_, hle, hall⟩ := hocc
  have hlen : 0 < phrase.length := by omega
  have h0 := hall 0 hlen
  have e0 : (k : Int).toNat + 0 = k := by simp
  rw [e0] at h0
  have ht := hpre (k + j - i) (by omega)
  have e1 : i - j + (k + j - i) = k := by omega
  rw [e1] at ht
  exact hfresh (k + j - i) (by omega) (by omega) (ht.symm.trans h0)

/-- The exhaustive scan misses no occurrence when the first code point of the phrase
does not occur again in it. -/
theorem searchInLine_complete (ctx : Context) (text phrase : List Rune) (hp : phrase ≠ [])
    (hfresh : ∀ t : Nat, 0 < t → t < phrase.length → phrase[t]? ≠ phrase[0]?) :
    ∃ r, searchInLine ctx text phrase true = .ok r ∧
      ∀ k : Nat, occursAt text phrase (k : Int) → (k : Int) ∈ r := by
  refine searchInLine_rule ctx text phrase true hp
    (fun i j acc => j ≤ i ∧ j < phrase.length ∧
      (∀ t : Nat, t < j → text[i - j + t]? = phrase[t]?) ∧
      (∀ k : Nat, occursAt text phrase (k : Int) → k + j < i → (k : Int) ∈ acc))
    _ ?_ ?_ ?_ ?_ ?_ ?_
  · exact ⟨le_refl _, List.length_pos.mpr hp, fun t ht => by omega, fun k _ hk => by omega⟩
  · rintro j acc ⟨hji, hj, hpre, hacc⟩ k hocc
    apply hacc k hocc
    have := hocc.2.1
    omega
  · rintro i j acc hi hj ⟨hji, _, hpre, hacc⟩ hab hl
    simp only [if_true]
    have hpre' : ∀ t : Nat, t < j + 1 → text[i + 1 - (j + 1) + t]? = phrase[t]? := by
      intro t ht
      have e : i + 1 - (j + 1) + t = i - j + t := by omega
      rw [e]
      by_cases htj : t < j
      · exact hpre t htj
      · have : t = j := by omega
        subst this
        have e2 : i - t + t = i := by omega
        rw [e2, List.getElem?_eq_getElem hi, List.getElem?_eq_getElem hj, hab]
    refine ⟨Nat.zero_le _, by omega, fun t ht => by omega, fun k hocc hk => ?_⟩
    rw [List.mem_append]
    by_cases hlt : k + j < i
    · exact Or.inl (hacc k hocc hlt)
    · by_cases heq : k + j = i
      · right
        have : (k : Int) = (i : Int) - j := by omega
        simp [this]
      · exact absurd (no_occurrence_inside text phrase hfresh (i + 1) (j + 1) (by omega)
          (by omega) hpre' k hocc (by omega) (by omega)) id
  · rintro i j acc hi hj ⟨hji, _, hpre, hacc⟩ hab hl
    refine ⟨by omega, by omega, fun t ht => ?_, fun k hocc hk => hacc k hocc (by omega)⟩
    have e : i + 1 - (j + 1) + t = i - j + t := by omega
    rw [e]
    by_cases htj : t < j
    · exact hpre t htj
    · have : t = j := by omega
      subst this
      have e2 : i - t + t = i := by omega
      rw [e2, List.getElem?_eq_getElem hi, List.getElem?_eq_getElem hj, hab]
  · rintro i acc hi hj ⟨_, _, _, hacc⟩ hab
    refine ⟨by omega, hj, fun t ht => by omega, fun k hocc hk => ?_⟩
    by_cases hlt : k + 0 < i
    · exact hacc k hocc hlt
    · have hki : k = i := by omega
      subst hki
      have h0 := hocc.2.2 0 hj
      have e0 : ((k : Nat) : Int).toNat + 0 = k := by simp
      rw [e0, List.getElem?_eq_getElem hi, List.getElem?_eq_getElem hj] at h0
      exact absurd (Option.some.inj h0) hab
  · rintro i j acc hi hj ⟨hji, _, hpre, hacc⟩ hab h0
    refine ⟨by omega, by omega, fun t ht => by omega, fun k hocc hk => ?_⟩
    by_cases hlt : k + j < i
    · exact hacc k hocc hlt
    · by_cases heq : k + j = i
      · have hj' := hocc.2.2 j hj
        have e0 : ((k : Nat) : Int).toNat + j = i := by simp; omega
        rw [e0, List.getElem?_eq_getElem hi, List.getElem?_eq_getElem hj] at hj'
        exact absurd (Option.some.inj hj') hab
      · exact absurd (no_occurrence_inside text phrase hfresh i j hji (by omega) hpre k hocc
          (by omega) (by omega)) id

/-- The members of `allOccurrences` are the occurrences. -/
theorem mem_allOccurrences (text phrase : List Rune) (k : Int) :
    k ∈ allOccurrences text phrase ↔ occursAt text phrase k := by
  unfold allOccurrences
  rw [List.mem_map]
  constructor
  · rintro ⟨n, hn, rfl⟩
    have := (List.mem_filter.mp hn).2
    simpa using this
  · intro hocc
    have h0 : 0 ≤ k := hocc.1
    have h1 := hocc.2.1
    refine ⟨k.toNat, List.mem_filter.mpr ⟨List.mem_range.mpr (by omega), ?_⟩, by omega⟩
    have e : ((k.toNat : Nat) : Int) = k := by omega
    rw [e]
    simpa using hocc

/-- The list `allOccurrences` is strictly increasing. -/
theorem allOccurrences_sorted (text phrase : List Rune) :
    (allOccurrences text phrase).Pairwise (fun a b => a < b) := by
  unfold allOccurrences
  rw [List.pairwise_map]
  exact ((List.pairwise_lt_range _).filter _).imp (fun h => by omega)

/-- A strictly increasing list whose members are the occurrences is `allOccurrences`. -/
theorem eq_allOccurrences (text phrase : List Rune) (r : List Int)
    (hsorted : r.Pairwise (fun a b => a < b))
    (hmem : ∀ k : Int, k ∈ r ↔ occursAt text phrase k) :
    r = allOccurrences text phrase := by
  have hs := allOccurrences_sorted text phrase
  have hperm : r.Perm (allOccurrences text phrase) :=
    (List.perm_ext_iff_of_nodup hsorted.nodup hs.nodup).mpr
      (fun k => (hmem k).trans (mem_allOccurrences text phrase k).symm)
  exact List.eq_of_perm_of_sorted hperm hsorted hs

/-! ## The goroutines of `All` -/

/-- When every task runs to its end, `All` delivers what the tasks send, in order. -/
theorem All_of_tasks_ok (ctx : Context) (fs : FileSystem) (phrase : String)
    (arrival : List String)
    (h : ∀ f ∈ arrival, ∃ m, All.task ctx fs phrase f = .ok m) :
    All ctx fs phrase arrival = .ok (arrival.flatMap (All.sent ctx fs phrase)) := by
  induction arrival with
  | nil => rfl
  | cons f rest ih =>
    obtain ⟨m, hm⟩ := h f (List.mem_cons_self _ _)
    have hrest := ih (fun g hg => h g (List.mem_cons_of_mem _ hg))
    rw [All, hm, hrest, List.flatMap_cons]
    simp only [All.sent, hm]

/-- When some task panics, so does the run of `All`. -/
theorem All_of_task_error (ctx : Context) (fs : FileSystem) (phrase : String)
    (arrival : List String)
    (h : ∃ f ∈ arrival, ∃ e, All.task ctx fs phrase f = .error e) :
    ∃ e, All ctx fs phrase arrival = .error e := by
  induction arrival with
  | nil =>
    obtain ⟨f, hf, _⟩ := h
    simp at hf
  | cons g rest ih =>
    cases hg : All.task ctx fs phrase g with
    | error e => exact ⟨e, by rw [All, hg]⟩
    | ok m =>
      obtain ⟨f, hf, e, he⟩ := h
      rcases List.mem_cons.mp hf with rfl | hf
      · rw [hg] at he
        cases he
      · obtain ⟨e', he'⟩ := ih ⟨f, hf, e, he⟩
        exact ⟨e', by rw [All, hg, he']⟩

/-- The task of a file that does not open sends nothing and does not panic. -/
theorem All_task_unopened (ctx : Context) (fs : FileSystem) (phrase f : String)
    (h : opens fs f = false) : All.task ctx fs phrase f = .ok none := by
  cases hf : fs f with
  | none => simp [All.task, hf]
  | some file => simp [opens, hf] at h

/-- Removing the files that do not open does not change what is sent. -/
theorem flatMap_sent_filter_opens (ctx : Context) (fs : FileSystem) (phrase : String)
    (files : List String) :
    (files.filter (opens fs)).flatMap (All.sent ctx fs phrase) =
      files.flatMap (All.sent ctx fs phrase) := by
  induction files with
  | nil => rfl
  | cons f rest ih =>
    rw [List.filter_cons, List.flatMap_cons]
    cases ho : opens fs f with
    | true => simp [List.flatMap_cons, ih]
    | false =>
      have : All.sent ctx fs phrase f = [] := by
        simp [All.sent, All_task_unopened ctx fs phrase f ho]
      simp [this, ih]

/-- With a non-empty phrase every task of `All` runs to its end: it sends the matches of
its file when the file opens and has one, and nothing otherwise. -/
theorem All_task_eq (ctx : Context) (fs : FileSystem) (phrase f : String)
    (hp : phrase ≠ "") :
    All.task ctx fs phrase f =
      .ok (if opensWithMatch ctx fs phrase f then some (matchesIn ctx fs phrase f)
        else none) := by
  cases hf : fs f with
  | none => simp [All.task, opensWithMatch, hf]
  | some file =>
    simp only [All.task, opensWithMatch, matchesIn, hf]
    rw [search_all_eq ctx file phrase hp]
    by_cases hnil : fileResults ctx phrase file = []
    · simp [hnil]
    · simp [hnil]

/-- With a non-empty phrase `All` delivers the matches of the files that open and have
a match, in arrival order. -/
theorem All_eq (ctx : Context) (fs : FileSystem) (phrase : String) (hp : phrase ≠ "")
    (arrival : List String) :
    All ctx fs phrase arrival =
      .ok ((arrival.filter (opensWithMatch ctx fs phrase)).map (matchesIn ctx fs phrase)) := by
  rw [All_of_tasks_ok ctx fs phrase arrival (fun f _ => ⟨_, All_task_eq ctx fs phrase f hp⟩)]
  congr 1
  induction arrival with
  | nil => rfl
  | cons f rest ih =>
    rw [List.flatMap_cons, List.filter_cons, ih]
    cases hm : opensWithMatch ctx fs phrase f <;>
      simp [All.sent, All_task_eq ctx fs phrase f hp, hm]

/-! ## The claims, continued -/

/-- C11 (the code departs from the claim): for an empty file list no task is started,
so no message ever arrives on `msg`: `Any` delivers nothing, and under every schedule
its body is still at the receive `winner := <-msg`. -/
theorem Any_empty_files_blocks (ctx : Context) (fs : FileSystem) (phrase : String)
    (schedule : List Action) :
    Any ctx fs phrase [] = .ok none ∧
      (Any.run fs phrase (Any.init ctx []) schedule).main = .receiving := by
  refine ⟨rfl, ?_⟩
  rw [run_no_task]
  rfl

/-- C12: every `Result` that `search` returns, for every file, non-empty phrase and
mode, has `LineNum ≥ 1` and `ColNum ≥ 1`, and so differs from the zero-valued
`Result{}`. -/
theorem search_results_not_zero (ctx : Context) (file : List String) (phrase : String)
    (all : Bool) (hp : phrase ≠ "") :
    ∃ rs err, search ctx file phrase all = .ok (rs, err) ∧
      ∀ r ∈ rs, 1 ≤ r.LineNum ∧ 1 ≤ r.ColNum ∧ r ≠ Result.zero := by
  have key : ∀ r ∈ fileResults ctx phrase file,
      1 ≤ r.LineNum ∧ 1 ≤ r.ColNum ∧ r ≠ Result.zero := by
    intro r hr
    have h := mem_fileResults ctx phrase hp file r hr
    refine ⟨h.2.2.1, h.2.2.2.1, fun hz => ?_⟩
    have h1 := h.2.2.1
    rw [hz] at h1
    exact absurd h1 (by decide)
  cases all with
  | true =>
    rw [search_all_eq ctx file phrase hp]
    by_cases hnil : fileResults ctx phrase file = []
    · rw [if_pos hnil]
      exact ⟨[], _, rfl, fun r hr => by simp at hr⟩
    · rw [if_neg hnil]
      exact ⟨_, _, rfl, key⟩
  | false =>
    rw [search_first_eq ctx file phrase hp]
    by_cases hnil : fileResults ctx phrase file = []
    · rw [if_pos hnil]
      exact ⟨[], _, rfl, fun r hr => by simp at hr⟩
    · rw [if_neg hnil]
      exact ⟨_, _, rfl, fun r hr => key r (List.mem_of_mem_take hr)⟩

/-- C12 on a two-line file with matches on both lines. -/
theorem search_results_not_zero_witness :
    "aa" ≠ "" ∧ ∃ rs err, search ⟨false⟩ ["aaaa", "xaa"] "aa" true = .ok (rs, err) ∧
      ∀ r ∈ rs, 1 ≤ r.LineNum ∧ 1 ≤ r.ColNum ∧ r ≠ Result.zero :=
  ⟨by decide, search_results_not_zero ⟨false⟩ ["aaaa", "xaa"] "aa" true (by decide)⟩

/-- C13: an unreadable file does not abort the run. For every file list, the outcomes
`All` delivers are, as a multiset, those it delivers on the list with the files that fail
to open removed, whatever the two arrival orders; a run that panics does so on both
lists, and with a non-empty phrase no run panics. -/
theorem All_skips_unopenable_files (ctx : Context) (fs : FileSystem) (phrase : String)
    (files arrival arrival' : List String)
    (h : arrival.Perm files) (h' : arrival'.Perm (files.filter (opens fs))) :
    ((∃ outs outs', All ctx fs phrase arrival = .ok outs ∧
          All ctx fs phrase arrival' = .ok outs' ∧ outs.Perm outs') ∨
        ((∃ e, All ctx fs phrase arrival = .error e) ∧
          ∃ e, All ctx fs phrase arrival' = .error e)) ∧
      (phrase ≠ "" → ∃ outs outs', All ctx fs phrase arrival = .ok outs ∧
          All ctx fs phrase arrival' = .ok outs' ∧ outs.Perm outs') := by
  have main : (∃ outs outs', All ctx fs phrase arrival = .ok outs ∧
        All ctx fs phrase arrival' = .ok outs' ∧ outs.Perm outs') ∨
      ((∃ e, All ctx fs phrase arrival = .error e) ∧
        ∃ e, All ctx fs phrase arrival' = .error e) := by
    by_cases hall : ∀ f ∈ files, ∃ m, All.task ctx fs phrase f = .ok m
    · left
      have h1 : ∀ f ∈ arrival, ∃ m, All.task ctx fs phrase f = .ok m :=
        fun f hf => hall f (h.mem_iff.mp hf)
      have h2 : ∀ f ∈ arrival', ∃ m, All.task ctx fs phrase f = .ok m :=
        fun f hf => hall f (List.mem_filter.mp (h'.mem_iff.mp hf)).1
      refine ⟨_, _, All_of_tasks_ok ctx fs phrase arrival h1,
        All_of_tasks_ok ctx fs phrase arrival' h2, ?_⟩
      have p1 := List.Perm.flatMap_right (All.sent ctx fs phrase) h
      have p2 := List.Perm.flatMap_right (All.sent ctx fs phrase) h'
      rw [flatMap_sent_filter_opens] at p2
      exact p1.trans p2.symm
    · right
      have hex : ∃ f ∈ files, ∃ e, All.task ctx fs phrase f = .error e := by
        by_contra hne
        apply hall
        intro f hf
        cases hf' : All.task ctx fs phrase f with
        | ok m => exact ⟨m, rfl⟩
        | error e => exact absurd ⟨f, hf, e, hf'⟩ hne
      obtain ⟨f, hf, e, he⟩ := hex
      have hopen : opens fs f = true := by
        cases ho : opens fs f with
        | true => rfl
        | false =>
          rw [All_task_unopened ctx fs phrase f ho] at he
          cases he
      exact ⟨All_of_task_error ctx fs phrase arrival ⟨f, h.mem_iff.mpr hf, e, he⟩,
        All_of_task_error ctx fs phrase arrival'
          ⟨f, h'.mem_iff.mpr (List.mem_filter.mpr ⟨hf, hopen⟩), e, he⟩⟩
  refine ⟨main, fun hp => ?_⟩
  rcases main with hok | ⟨⟨e, he⟩, _⟩
  · exact hok
  · rw [All_eq ctx fs phrase hp] at he
    cases he

/-- C13 on `[missing, b.txt]`: exactly the outcome of `b.txt` is delivered. -/
theorem All_skips_unopenable_files_witness :
    (["missing", "b.txt"].Perm ["missing", "b.txt"] ∧
        ["b.txt"].Perm (["missing", "b.txt"].filter (opens sampleFiles))) ∧
      All ⟨false⟩ sampleFiles "cat" ["missing", "b.txt"] =
        .ok [[⟨"cat", "a cat sat", 1, 3⟩]] ∧
      (((∃ outs outs', All ⟨false⟩ sampleFiles "cat" ["missing", "b.txt"] = .ok outs ∧
            All ⟨false⟩ sampleFiles "cat" ["b.txt"] = .ok outs' ∧ outs.Perm outs') ∨
          ((∃ e, All ⟨false⟩ sampleFiles "cat" ["missing", "b.txt"] = .error e) ∧
            ∃ e, All ⟨false⟩ sampleFiles "cat" ["b.txt"] = .error e)) ∧
        ("cat" ≠ "" → ∃ outs outs',
          All ⟨false⟩ sampleFiles "cat" ["missing", "b.txt"] = .ok outs ∧
            All ⟨false⟩ sampleFiles "cat" ["b.txt"] = .ok outs' ∧ outs.Perm outs')) :=
  ⟨⟨by decide, by decide⟩, by decide,
    All_skips_unopenable_files ⟨false⟩ sampleFiles "cat" ["missing", "b.txt"]
      ["missing", "b.txt"] ["b.txt"] (by decide) (by decide)⟩

/-- C14 as stated fails: `a.txt` opens but has no match, and `All` delivers no element
for it. -/
theorem All_sends_nothing_without_match :
    All ⟨false⟩ sampleFiles "cat" ["a.txt"] = .ok [] ∧
      (["a.txt"].filter (opens sampleFiles)).length = 1 := by
  decide

/-- C14 as amended: for every file list and non-empty phrase, `All` delivers exactly one
outcome per file that opens and in which `search` finds a match, namely the matches of
that file; so the number of elements it delivers equals the number of such files. -/
theorem All_one_outcome_per_matching_file (ctx : Context) (fs : FileSystem)
    (phrase : String) (files arrival : List String) (hp : phrase ≠ "")
    (h : arrival.Perm files) :
    ∃ outs, All ctx fs phrase arrival = .ok outs ∧
      outs = (arrival.filter (opensWithMatch ctx fs phrase)).map (matchesIn ctx fs phrase) ∧
      outs.length = (files.filter (opensWithMatch ctx fs phrase)).length := by
  refine ⟨_, All_eq ctx fs phrase hp arrival, rfl, ?_⟩
  rw [List.length_map]
  exact (h.filter _).length_eq

/-- C14 as amended, on `[a.txt, missing, b.txt]` arriving in the order
`[b.txt, a.txt, missing]`. -/
theorem All_one_outcome_per_matching_file_witness :
    ("cat" ≠ "" ∧ ["b.txt", "a.txt", "missing"].Perm ["a.txt", "missing", "b.txt"]) ∧
      ∃ outs, All ⟨false⟩ sampleFiles "cat" ["b.txt", "a.txt", "missing"] = .ok outs ∧
        outs = (["b.txt", "a.txt", "missing"].filter
            (opensWithMatch ⟨false⟩ sampleFiles "cat")).map
          (matchesIn ⟨false⟩ sampleFiles "cat") ∧
        outs.length = (["a.txt", "missing", "b.txt"].filter
          (opensWithMatch ⟨false⟩ sampleFiles "cat")).length :=
  ⟨⟨by decide, by decide⟩,
    All_one_outcome_per_matching_file ⟨false⟩ sampleFiles "cat"
      ["a.txt", "missing", "b.txt"] ["b.txt", "a.txt", "missing"] (by decide) (by decide)⟩

/-- C15 as stated fails: with a context that is already cancelled, `search` still
reports the match of the file, in either mode. -/
theorem search_reports_under_cancelled_context :
    search ⟨true⟩ ["x", "a cat sat"] "cat" false =
        .ok ([⟨"cat", "a cat sat", 2, 3⟩], none) ∧
      search ⟨true⟩ ["x", "a cat sat"] "cat" true =
        .ok ([⟨"cat", "a cat sat", 2, 3⟩], none) := by
  decide

/-- C15 as amended: `search` does not observe its context: for every file, phrase and
mode it returns the same outcome whatever the state of the context. Cancellation is
observed by the per-file task of `Any` before it opens its file: a task that starts
with the context done returns without sending an outcome. -/
theorem search_ignores_context (ctx ctx' : Context) (fs : FileSystem)
    (file : List String) (phrase filename : String) (all : Bool) :
    search ctx file phrase all = search ctx' file phrase all ∧
      Any.task ⟨true⟩ fs phrase filename = .ok none :=
  ⟨scan_context_free ctx ctx' phrase all file 1 [], rfl⟩

/-- C16 (the code departs from the claim): with files `a.txt` and `b.txt`, both tasks
pass their `select` before the winner is received; the send of `a.txt` is received,
`Any` cancels and delivers. The task of `b.txt` is then at its send on `msg`, which no
goroutine receives from any more: it stays there under every further schedule. -/
theorem Any_leaves_task_blocked :
    Any.run sampleFiles "cat" (Any.init ⟨false⟩ ["a.txt", "b.txt"])
        [.task 0, .task 1, .recv 0, .main, .main] =
        ⟨[.finished, .sending ⟨"cat", "a cat sat", 1, 3⟩], .delivered Result.zero, true⟩ ∧
      ∀ schedule : List Action,
        (Any.run sampleFiles "cat"
          ⟨[.finished, .sending ⟨"cat", "a cat sat", 1, 3⟩], .delivered Result.zero, true⟩
          schedule).tasks = [.finished, .sending ⟨"cat", "a cat sat", 1, 3⟩] := by
  refine ⟨by decide, fun schedule => ?_⟩
  rw [run_after_delivery sampleFiles "cat" Result.zero schedule _ rfl
    (fun t ht filename => by
      simp only [List.mem_cons, List.mem_singleton, List.not_mem_nil, or_false] at ht
      rcases ht with rfl | rfl <;> simp)]

/-- C17: for every line and non-empty phrase, the offsets exhaustive `searchInLine`
returns increase strictly, and two consecutive offsets differ by at least
`len(phrase)`. -/
theorem searchInLine_no_overlap (ctx : Context) (text phrase : List Rune)
    (hp : phrase ≠ []) :
    ∃ r, searchInLine ctx text phrase true = .ok r ∧
      r.Pairwise (fun a b => a < b) ∧
      r.Chain' (fun a b => a + (phrase.length : Int) ≤ b) := by
  obtain ⟨r, hr, _, hpw⟩ := searchInLine_sound ctx text phrase true hp
  have hlen : 0 < phrase.length := List.length_pos.mpr hp
  exact ⟨r, hr, hpw.imp (fun h => by omega), hpw.chain'⟩

/-- C17 on line `aaaaa` and phrase `aa`. -/
theorem searchInLine_no_overlap_witness :
    "aa".toList ≠ [] ∧ ∃ r, searchInLine ⟨false⟩ "aaaaa".toList "aa".toList true = .ok r ∧
      r.Pairwise (fun a b => a < b) ∧
      r.Chain' (fun a b => a + ("aa".toList.length : Int) ≤ b) :=
  ⟨by decide, searchInLine_no_overlap ⟨false⟩ "aaaaa".toList "aa".toList (by decide)⟩

/-- C18: for every line and non-empty phrase, `searchInLine` with `all = false` returns
exactly the first element of the list it returns with `all = true`, and the empty list
when that list is empty. -/
theorem searchInLine_first_is_head (ctx : Context) (text phrase : List Rune)
    (hp : phrase ≠ []) :
    ∃ r, searchInLine ctx text phrase true = .ok r ∧
      searchInLine ctx text phrase false = .ok r.head?.toList := by
  obtain ⟨r, hr, hfirst⟩ := searchInLine_first_all ctx text phrase hp
  refine ⟨r, hr, ?_⟩
  rw [hfirst]
  cases r <;> rfl

/-- C18 on line `xaaaa` and phrase `aa`. -/
theorem searchInLine_first_is_head_witness :
    "aa".toList ≠ [] ∧ ∃ r, searchInLine ⟨false⟩ "xaaaa".toList "aa".toList true = .ok r ∧
      searchInLine ⟨false⟩ "xaaaa".toList "aa".toList false = .ok r.head?.toList :=
  ⟨by decide, searchInLine_first_is_head ⟨false⟩ "xaaaa".toList "aa".toList (by decide)⟩

/-- C19: for every line and non-empty phrase `searchInLine` is total: it returns a list
of offsets, the loop ends within `2 * len(line) + 1` iterations (any larger fuel gives
the same list), and no access `line[i]` or `phrase[j]` is out of range, an access being
in range exactly when `0 ≤ k < len(s)`. -/
theorem searchInLine_total (ctx : Context) (text phrase : List Rune) (all : Bool)
    (hp : phrase ≠ []) :
    (∃ r, searchInLine ctx text phrase all = .ok r ∧
        ∀ f, 2 * text.length + 1 ≤ f →
          searchInLine.loop text phrase all f 0 0 [] = .ok r) ∧
      searchInLine ctx text phrase all ≠ .error .indexOutOfRange ∧
      searchInLine ctx text phrase all ≠ .error .outOfFuel ∧
      ∀ (s : List Rune) (k : Int), (∃ c, index s k = .ok c) ↔ (0 ≤ k ∧ k < s.length) := by
  obtain ⟨r, hr, _⟩ := searchInLine_sound ctx text phrase all hp
  refine ⟨⟨r, hr, loop_enough_fuel ctx text phrase all hp r hr⟩, ?_, ?_, index_ok_iff⟩
  · rw [hr]
    exact fun h => by cases h
  · rw [hr]
    exact fun h => by cases h

/-- C19 on line `aab aab` and phrase `aab`, where the mismatch branch with `j > 0` is
taken. -/
theorem searchInLine_total_witness :
    "aab".toList ≠ [] ∧
      ((∃ r, searchInLine ⟨false⟩ "aab aab".toList "aab".toList true = .ok r ∧
          ∀ f, 2 * "aab aab".toList.length + 1 ≤ f →
            searchInLine.loop "aab aab".toList "aab".toList true f 0 0 [] = .ok r) ∧
        searchInLine ⟨false⟩ "aab aab".toList "aab".toList true ≠ .error .indexOutOfRange ∧
        searchInLine ⟨false⟩ "aab aab".toList "aab".toList true ≠ .error .outOfFuel ∧
        ∀ (s : List Rune) (k : Int),
          (∃ c, index s k = .ok c) ↔ (0 ≤ k ∧ k < s.length)) :=
  ⟨by decide, searchInLine_total ⟨false⟩ "aab aab".toList "aab".toList true (by decide)⟩

/-- C20: for every line and non-empty phrase whose first code point does not occur
again later in the phrase, exhaustive `searchInLine` returns exactly the ascending list
of all offsets at which the phrase occurs in the line, and with `all = false` it returns
the leftmost such offset (nothing when there is none). -/
theorem searchInLine_complete_when_first_rune_fresh (ctx : Context)
    (text phrase : List Rune) (hp : phrase ≠ [])
    (hfresh : ∀ t : Nat, 0 < t → t < phrase.length → phrase[t]? ≠ phrase[0]?) :
    searchInLine ctx text phrase true = .ok (allOccurrences text phrase) ∧
      (allOccurrences text phrase).Pairwise (fun a b => a < b) ∧
      (∀ k : Int, k ∈ allOccurrences text phrase ↔ occursAt text phrase k) ∧
      ∃ first, searchInLine ctx text phrase false = .ok first ∧
        ((first = [] ∧ ∀ k : Int, ¬ occursAt text phrase k) ∨
          ∃ k, first = [k] ∧ occursAt text phrase k ∧
            ∀ k' : Int, occursAt text phrase k' → k ≤ k') := by
  obtain ⟨r, hr, hocc, hpw⟩ := searchInLine_sound ctx text phrase true hp
  obtain ⟨r', hr', hall⟩ := searchInLine_complete ctx text phrase hp hfresh
  have hrr : r' = r := Except.ok.inj (hr'.symm.trans hr)
  subst hrr
  have hlen : 0 < phrase.length := List.length_pos.mpr hp
  have hsorted : r'.Pairwise (fun a b => a < b) := hpw.imp (fun h => by omega)
  have hmem : ∀ k : Int, k ∈ r' ↔ occursAt text phrase k := by
    intro k
    refine ⟨hocc k, fun h => ?_⟩
    have h0 : 0 ≤ k := h.1
    have e : ((k.toNat : Nat) : Int) = k := by omega
    have := hall k.toNat (by rw [e]; exact h)
    rwa [e] at this
  have heq := eq_allOccurrences text phrase r' hsorted hmem
  obtain ⟨r2, hr2, hfirst⟩ := searchInLine_first_all ctx text phrase hp
  have hr2r : r2 = r' := Except.ok.inj (hr2.symm.trans hr)
  subst hr2r
  refine ⟨by rw [hr, heq], allOccurrences_sorted text phrase,
    mem_allOccurrences text phrase, r2.take 1, hfirst, ?_⟩
  cases hcase : r2 with
  | nil =>
    left
    refine ⟨rfl, fun k hk => ?_⟩
    have := (hmem k).mpr hk
    rw [hcase] at this
    simp at this
  | cons k0 rest =>
    right
    refine ⟨k0, rfl, (hmem k0).mp (by rw [hcase]; exact List.mem_cons_self _ _), ?_⟩
    intro k' hk'
    have hin := (hmem k').mpr hk'
    rw [hcase] at hin hsorted
    rcases List.mem_cons.mp hin with rfl | hrest
    · exact le_refl _
    · exact le_of_lt ((List.pairwise_cons.mp hsorted).1 k' hrest)

/-- C20 on line `ab abab` and phrase `ab`. -/
theorem searchInLine_complete_when_first_rune_fresh_witness :
    ("ab".toList ≠ [] ∧
        ∀ t : Nat, 0 < t → t < "ab".toList.length → "ab".toList[t]? ≠ "ab".toList[0]?) ∧
      searchInLine ⟨false⟩ "ab abab".toList "ab".toList true =
        .ok (allOccurrences "ab abab".toList "ab".toList) ∧
      (allOccurrences "ab abab".toList "ab".toList).Pairwise (fun a b => a < b) ∧
      (∀ k : Int, k ∈ allOccurrences "ab abab".toList "ab".toList ↔
        occursAt "ab abab".toList "ab".toList k) ∧
      ∃ first, searchInLine ⟨false⟩ "ab abab".toList "ab".toList false = .ok first ∧
        ((first = [] ∧ ∀ k : Int, ¬ occursAt "ab abab".toList "ab".toList k) ∨
          ∃ k, first = [k] ∧ occursAt "ab abab".toList "ab".toList k ∧
            ∀ k' : Int, occursAt "ab abab".toList "ab".toList k' → k ≤ k') :=
  have hfresh : ∀ t : Nat, 0 < t → t < "ab".toList.length →
      "ab".toList[t]? ≠ "ab".toList[0]? := by
    intro t h0 ht
    have hlen : "ab".toList.length = 2 := rfl
    have ht1 : t = 1 := by omega
    subst ht1
    decide
  ⟨⟨by decide, hfresh⟩,
    searchInLine_complete_when_first_rune_fresh ⟨false⟩ "ab abab".toList "ab".toList
      (by decide) hfresh⟩

end Search
